import Mathlib

/-!
# Verification of the doko key-derivation scripts

Shallow embedding of the BIP32/BIP39 key-derivation core of the repository
(`derive_keys.py`, `create_descriptors.py`, `create_valid_descriptors.py`,
`misc/recovery/fix_keys.py`, `misc/recovery/import_keys.py`).

Modelling conventions:
* Python `bytes` values are `List Nat` (each entry a byte value `< 256`).
* Python `str` values are `List Char` (a Python string is a sequence of code
  points); the handful of string operations the scripts use (`split('/')`,
  `endswith`, slicing, `int(...)` on decimal numerals) are given as explicit
  recursive functions so that concrete instances evaluate in the kernel.
* Cryptographic primitives that the scripts delegate to external libraries
  (SHA-256, HMAC-SHA512, secp256k1 point multiplication, HASH160) are passed
  in as explicit function arguments: every claim proved here is about the
  structure the scripts build around those primitives, not about the
  primitives themselves.
* Library code that is not part of the repository source (the `base58`
  package, `bip32utils.BIP32Key.ChildKey`, `mnemonic.Mnemonic.to_seed`) is
  modelled from the specification, as marked in the corresponding doc
  comments.
-/

namespace Doko

/-! ## Positional number systems

Big-endian digit strings over an arbitrary base.  `digitsBEToNat` is the
loop `acc = acc * base + digit` that both the `base58` package and Python's
`int.from_bytes` use; `natToDigitsBE` is the repeated `divmod` loop both use
in the other direction (most significant digit first, no leading zeros,
empty for zero). -/

/-- Value of a big-endian digit string: the `acc = acc * base + d` loop. -/
def digitsBEToNat (base : Nat) (l : List Nat) : Nat :=
  l.foldl (fun acc d => acc * base + d) 0

/-- Minimal big-endian digit string of a natural number (empty for `0`):
the repeated `divmod` loop, most significant digit first. -/
def natToDigitsBE (base : Nat) (n : Nat) : List Nat :=
  if h : n = 0 ∨ base ≤ 1 then [] else
    natToDigitsBE base (n / base) ++ [n % base]
termination_by n
decreasing_by
  push_neg at h
  exact Nat.div_lt_self (Nat.pos_of_ne_zero h.1) h.2

theorem natToDigitsBE_zero (base : Nat) : natToDigitsBE base 0 = [] := by
  rw [natToDigitsBE]; simp

theorem natToDigitsBE_pos (base n : Nat) (hn : n ≠ 0) (hb : 1 < base) :
    natToDigitsBE base n = natToDigitsBE base (n / base) ++ [n % base] := by
  rw [natToDigitsBE]
  simp [hn, Nat.not_le_of_lt hb]

theorem digitsBEToNat_append_singleton (base : Nat) (l : List Nat) (d : Nat) :
    digitsBEToNat base (l ++ [d]) = digitsBEToNat base l * base + d := by
  simp [digitsBEToNat, List.foldl_append]

/-- Value/digits round trip, one direction: reading back the digits of `n`
gives `n`. -/
theorem digitsBEToNat_natToDigitsBE (base : Nat) (hb : 1 < base) :
    ∀ n, digitsBEToNat base (natToDigitsBE base n) = n := by
  intro n
  induction n using Nat.strong_induction_on with
  | _ n ih =>
    by_cases hn : n = 0
    · subst hn; rw [natToDigitsBE_zero]; rfl
    · rw [natToDigitsBE_pos base n hn hb, digitsBEToNat_append_singleton,
        ih (n / base) (Nat.div_lt_self (Nat.pos_of_ne_zero hn) hb)]
      exact Nat.div_add_mod' n base

theorem natToDigitsBE_digits_lt (base : Nat) (hb : 1 < base) :
    ∀ n, ∀ d ∈ natToDigitsBE base n, d < base := by
  intro n
  induction n using Nat.strong_induction_on with
  | _ n ih =>
    by_cases hn : n = 0
    · subst hn; rw [natToDigitsBE_zero]; simp
    · rw [natToDigitsBE_pos base n hn hb]
      intro d hd
      rcases List.mem_append.mp hd with h | h
      · exact ih (n / base) (Nat.div_lt_self (Nat.pos_of_ne_zero hn) hb) d h
      · rcases List.mem_singleton.mp h with rfl
        exact Nat.mod_lt n (Nat.lt_of_lt_of_le Nat.zero_lt_one (Nat.le_of_lt hb))

/-- The leading (most significant) digit produced by `natToDigitsBE` is never
zero. -/
theorem natToDigitsBE_head_ne_zero (base : Nat) (hb : 1 < base) :
    ∀ n, n ≠ 0 → (natToDigitsBE base n).head? ≠ some 0 := by
  intro n
  induction n using Nat.strong_induction_on with
  | _ n ih =>
    intro hn
    rw [natToDigitsBE_pos base n hn hb]
    by_cases hq : n / base = 0
    · have hlt : n < base := (Nat.div_eq_zero_iff (Nat.lt_of_lt_of_le Nat.zero_lt_one (Nat.le_of_lt hb))).mp hq
      rw [hq, natToDigitsBE_zero]
      simpa [Nat.mod_eq_of_lt hlt] using hn
    · have hne : natToDigitsBE base (n / base) ≠ [] := by
        intro hc
        have h2 := digitsBEToNat_natToDigitsBE base hb (n / base)
        rw [hc] at h2
        simp only [digitsBEToNat, List.foldl_nil] at h2
        exact hq h2.symm
      rcases List.exists_cons_of_ne_nil hne with ⟨a, t, hat⟩
      have := ih (n / base) (Nat.div_lt_self (Nat.pos_of_ne_zero hn) hb) hq
      rw [hat] at this ⊢
      simpa using this

/-- A big-endian digit string whose first digit is nonzero has a nonzero
value (any positive base). -/
theorem digitsBEToNat_ne_zero_of_head (base : Nat) (hb : 0 < base) :
    ∀ (l : List Nat) (a : Nat), a ≠ 0 →
      l.foldl (fun acc d => acc * base + d) a ≠ 0 := by
  intro l
  induction l with
  | nil => intro a ha; simpa using ha
  | cons d t ih =>
    intro a ha
    simp only [List.foldl_cons]
    apply ih
    have : 1 * 1 ≤ a * base := Nat.mul_le_mul (Nat.pos_of_ne_zero ha) hb
    omega

theorem digitsBEToNat_cons_ne_zero (base : Nat) (hb : 0 < base)
    (d : Nat) (t : List Nat) (hd : d ≠ 0) :
    digitsBEToNat base (d :: t) ≠ 0 := by
  simp only [digitsBEToNat, List.foldl_cons, Nat.zero_mul, Nat.zero_add]
  exact digitsBEToNat_ne_zero_of_head base hb t d hd

/-- Value/digits round trip, the other direction: a digit string with digits
in range and no leading zero is recovered from its value. -/
theorem natToDigitsBE_digitsBEToNat (base : Nat) (hb : 1 < base) :
    ∀ l : List Nat, (∀ d ∈ l, d < base) → l.head? ≠ some 0 →
      natToDigitsBE base (digitsBEToNat base l) = l := by
  intro l
  induction l using List.reverseRecOn with
  | nil => intro _ _; simpa [digitsBEToNat] using natToDigitsBE_zero base
  | append_singleton t d ih =>
    intro hrange hhead
    rw [digitsBEToNat_append_singleton]
    have hd : d < base := hrange d (by simp)
    have hbpos : 0 < base := Nat.lt_of_lt_of_le Nat.zero_lt_one (Nat.le_of_lt hb)
    by_cases hz : digitsBEToNat base t * base + d = 0
    · have hm0 : digitsBEToNat base t * base = 0 := by omega
      have ht0 : digitsBEToNat base t = 0 := by
        rcases Nat.mul_eq_zero.mp hm0 with h | h
        · exact h
        · omega
      have hd0 : d = 0 := by omega
      cases t with
      | nil =>
        subst hd0
        simp at hhead
      | cons a s =>
        have ha : a ≠ 0 := by
          intro hc; subst hc
          simp at hhead
        exact absurd ht0 (digitsBEToNat_cons_ne_zero base hbpos a s ha)
    · rw [natToDigitsBE_pos base _ hz hb]
      have hdiv : (digitsBEToNat base t * base + d) / base = digitsBEToNat base t := by
        rw [Nat.add_comm, Nat.add_mul_div_right _ _ hbpos, Nat.div_eq_of_lt hd,
          Nat.zero_add]
      have hmod : (digitsBEToNat base t * base + d) % base = d := by
        rw [Nat.add_comm, Nat.add_mul_mod_self_right, Nat.mod_eq_of_lt hd]
      rw [hdiv, hmod]
      congr 1
      cases t with
      | nil => simpa [digitsBEToNat] using natToDigitsBE_zero base
      | cons a s =>
        apply ih
        · intro x hx; exact hrange x (List.mem_append_left _ hx)
        · simpa using hhead

/-- Zero digits in front of a digit string do not change its value. -/
theorem digitsBEToNat_replicate_zero_append (base : Nat) (z : Nat) (l : List Nat) :
    digitsBEToNat base (List.replicate z 0 ++ l) = digitsBEToNat base l := by
  induction z with
  | zero => rfl
  | succ k ih =>
    simpa [digitsBEToNat, List.replicate_succ] using ih

/-! ## Leading zeros -/

/-- Number of leading zero entries of a digit string (the `lstrip` count in
the `base58` package). -/
def leadingZeroCount (l : List Nat) : Nat :=
  (l.takeWhile (fun d => d == 0)).length

theorem takeWhile_zero_eq_replicate (l : List Nat) :
    l.takeWhile (fun d => d == 0) = List.replicate (leadingZeroCount l) 0 := by
  induction l with
  | nil => rfl
  | cons a t ih =>
    by_cases ha : a = 0
    · subst ha
      simp only [leadingZeroCount, List.takeWhile_cons] at *
      simpa [List.replicate_succ] using ih
    · simp [leadingZeroCount, List.takeWhile_cons, ha]

theorem replicate_append_dropWhile_zero (l : List Nat) :
    List.replicate (leadingZeroCount l) 0 ++ l.dropWhile (fun d => d == 0) = l := by
  rw [← takeWhile_zero_eq_replicate]
  exact List.takeWhile_append_dropWhile _ _

theorem head_dropWhile_zero_ne_zero (l : List Nat) :
    (l.dropWhile (fun d => d == 0)).head? ≠ some 0 := by
  induction l with
  | nil => simp
  | cons a t ih =>
    by_cases ha : a = 0
    · subst ha; simpa using ih
    · simp [List.dropWhile_cons, ha]

theorem leadingZeroCount_replicate_append (z : Nat) (l : List Nat)
    (h : l.head? ≠ some 0) :
    leadingZeroCount (List.replicate z 0 ++ l) = z := by
  induction z with
  | zero =>
    simp only [List.replicate_zero, List.nil_append]
    cases l with
    | nil => rfl
    | cons a t =>
      have ha : a ≠ 0 := by intro hc; subst hc; simp at h
      simp [leadingZeroCount, List.takeWhile_cons, ha]
  | succ k ih =>
    simp only [List.replicate_succ, List.cons_append, leadingZeroCount,
      List.takeWhile_cons] at *
    simpa using ih

theorem leadingZeroCount_replicate (z : Nat) :
    leadingZeroCount (List.replicate z 0) = z := by
  induction z with
  | zero => rfl
  | succ k ih =>
    simp only [leadingZeroCount, List.replicate_succ, List.takeWhile_cons] at *
    simpa using ih

/-! ## Base58

Modelled from the spec: the `base58` Python package used by
`misc/recovery/fix_keys.py` is an external dependency, not part of src/.
`b58encode` counts the leading zero bytes, converts the byte string to an
integer and that integer to base-58 digits, and maps through the Bitcoin
alphabet (leading zero bytes become leading `1` characters); `b58decode`
inverts each step. -/

/-- The Bitcoin Base58 alphabet. -/
def b58Alphabet : List Char :=
  "123456789ABCDEFGHJKLMNPQRSTUVWXYZabcdefghijkmnopqrstuvwxyz".toList

/-- Digit value of a Base58 character. -/
def b58CharIndex (c : Char) : Nat := b58Alphabet.indexOf c

/-- Character of a Base58 digit value. -/
def b58Char (d : Nat) : Char := b58Alphabet.getD d 'A'

/-- Modelled from the spec: `base58.b58encode` on a byte string (result as a
list of characters). -/
def b58encode (bytes : List Nat) : List Char :=
  (List.replicate (leadingZeroCount bytes) 0 ++
    natToDigitsBE 58 (digitsBEToNat 256 bytes)).map b58Char

/-- Modelled from the spec: `base58.b58decode` on a string (leading `1`
characters become leading zero bytes, the rest is base-58-to-integer and
integer-to-bytes conversion). -/
def b58decode (cs : List Char) : List Nat :=
  List.replicate (leadingZeroCount (cs.map b58CharIndex)) 0 ++
    natToDigitsBE 256 (digitsBEToNat 58 (cs.map b58CharIndex))

theorem b58CharIndex_b58Char (d : Nat) (hd : d < 58) :
    b58CharIndex (b58Char d) = d := by
  revert hd
  revert d
  decide

theorem map_b58CharIndex_map_b58Char (ds : List Nat) (h : ∀ d ∈ ds, d < 58) :
    (ds.map b58Char).map b58CharIndex = ds := by
  induction ds with
  | nil => rfl
  | cons a t ih =>
    simp only [List.map_cons, List.cons.injEq]
    exact ⟨b58CharIndex_b58Char a (h a (by simp)), ih (fun d hd => h d (by simp [hd]))⟩

/-- Base58 encode/decode round trip on arbitrary byte strings. -/
theorem b58decode_b58encode (l : List Nat) (h : ∀ b ∈ l, b < 256) :
    b58decode (b58encode l) = l := by
  have h58 : (1 : Nat) < 58 := by norm_num
  have h256 : (1 : Nat) < 256 := by norm_num
  have hdec : List.replicate (leadingZeroCount l) 0 ++
      l.dropWhile (fun d => d == 0) = l := replicate_append_dropWhile_zero l
  have hval : digitsBEToNat 256 l =
      digitsBEToNat 256 (l.dropWhile (fun d => d == 0)) := by
    conv_lhs => rw [← hdec]
    exact digitsBEToNat_replicate_zero_append 256 _ _
  have hall_lt : ∀ d ∈ List.replicate (leadingZeroCount l) 0 ++
      natToDigitsBE 58 (digitsBEToNat 256 l), d < 58 := by
    intro d hd
    rcases List.mem_append.mp hd with hmem | hmem
    · have := List.eq_of_mem_replicate hmem
      omega
    · exact natToDigitsBE_digits_lt 58 h58 _ d hmem
  have hmap : (b58encode l).map b58CharIndex =
      List.replicate (leadingZeroCount l) 0 ++
        natToDigitsBE 58 (digitsBEToNat 256 l) := by
    unfold b58encode
    exact map_b58CharIndex_map_b58Char _ hall_lt
  unfold b58decode
  rw [hmap]
  cases hE : l.dropWhile (fun d => d == 0) with
  | nil =>
    have hv0 : digitsBEToNat 256 l = 0 := by
      rw [hval, hE]; rfl
    rw [hv0, natToDigitsBE_zero, List.append_nil,
      leadingZeroCount_replicate (leadingZeroCount l)]
    have h0 : digitsBEToNat 58 (List.replicate (leadingZeroCount l) 0) = 0 := by
      have := digitsBEToNat_replicate_zero_append 58 (leadingZeroCount l) []
      simpa using this
    rw [h0, natToDigitsBE_zero, List.append_nil, ← hdec, hE, List.append_nil,
      leadingZeroCount_replicate]
  | cons a t =>
    have ha : a ≠ 0 := by
      have := head_dropWhile_zero_ne_zero l
      rw [hE] at this
      simpa using this
    have hvne : digitsBEToNat 256 l ≠ 0 := by
      rw [hval, hE]
      exact digitsBEToNat_cons_ne_zero 256 (by norm_num) a t ha
    have hds_head : (natToDigitsBE 58 (digitsBEToNat 256 l)).head? ≠ some 0 :=
      natToDigitsBE_head_ne_zero 58 h58 _ hvne
    rw [leadingZeroCount_replicate_append _ _ hds_head,
      digitsBEToNat_replicate_zero_append 58 _ _,
      digitsBEToNat_natToDigitsBE 58 h58 _, hval, hE]
    have hrbytes : ∀ d ∈ (a :: t), d < 256 := by
      intro d hd
      refine h d ?_
      have hsub := List.dropWhile_sublist (p := fun x => x == 0) (l := l)
      rw [hE] at hsub
      exact hsub.mem hd
    have hrhead : ((a :: t) : List Nat).head? ≠ some 0 := by simpa using ha
    rw [natToDigitsBE_digitsBEToNat 256 h256 _ hrbytes hrhead]
    rw [hE] at hdec
    exact hdec

/-! ## Python string operations

Python `str` values are modelled as `List Char`.  The scripts use only
`split('/')`, `endswith`, slicing and `int(...)` on decimal numerals. -/

/-- The apostrophe character (the hardening marker in a derivation path). -/
def apos : Char := Char.ofNat 39

/-- Value of an ASCII decimal digit character, if it is one. -/
def charToDigit? (c : Char) : Option Nat :=
  if 48 ≤ c.toNat ∧ c.toNat ≤ 57 then some (c.toNat - 48) else none

/-- Python `int(s)` restricted to the canonical decimal numerals that occur
in derivation paths: `none` (an exception in Python) on the empty string or
on any non-digit character. -/
def pyInt? : List Char → Option Nat
  | [] => none
  | cs => cs.foldl
      (fun acc c => acc.bind (fun a => (charToDigit? c).map (fun d => a * 10 + d)))
      (some 0)

/-- Python `s.split(sep)` for a single-character separator: splits on every
occurrence and keeps empty pieces (`"".split('/') = ['']`). -/
def pySplit (sep : Char) : List Char → List (List Char)
  | [] => [[]]
  | c :: rest =>
    let r := pySplit sep rest
    if c = sep then [] :: r
    else
      match r with
      | [] => [[c]]
      | h :: t => (c :: h) :: t

/-- Python `s.endswith(c)` for a single-character suffix. -/
def pyEndsWith (cs : List Char) (c : Char) : Bool :=
  cs.getLast? = some c

/-! ## WIF encoding (`misc/recovery/fix_keys.py`)

`derive_testnet_keys` encodes each derived private key by hand:
`extended_key = b'\xef' + private_key_bytes + b'\x01'`, then a 4-byte
double-SHA256 checksum, then Base58.  Only the composition around SHA-256 is
the script's own code, so `sha256` is an explicit argument. -/

/-- The WIF-encoding block of `derive_testnet_keys`
(`misc/recovery/fix_keys.py` lines 34-38). -/
def testnet_wif (sha256 : List Nat → List Nat) (private_key_bytes : List Nat) :
    List Char :=
  let extended_key := 0xEF :: (private_key_bytes ++ [0x01])
  let checksum := (sha256 (sha256 extended_key)).take 4
  b58encode (extended_key ++ checksum)

/-- Version byte of the WIF serialization, following the spec:
`0x80 (main) | 0xEF (test)`. -/
def wifVersionByte (testnet : Bool) : Nat :=
  if testnet then 0xEF else 0x80

/-- Modelled from the spec: `toWIF` of §4.4, `payload = version || privateKey
|| (compressed ? 0x01 : "")` with a 4-byte double-SHA256 checksum,
Base58-encoded.  Used as the specification side of the refinement claims
about the hand-written encoder. -/
def toWIF (sha256 : List Nat → List Nat) (testnet compressed : Bool)
    (privKey : List Nat) : List Char :=
  let payload := wifVersionByte testnet ::
    (privKey ++ (if compressed then [0x01] else []))
  b58encode (payload ++ (sha256 (sha256 payload)).take 4)

/-! ## Master key derivation (`derive_keys.py`) -/

/-- The ASCII bytes of the fixed HMAC key `"Bitcoin seed"`. -/
def bitcoinSeedKey : List Nat := "Bitcoin seed".toList.map Char.toNat

/-- `derive_master_key` from `derive_keys.py` lines 16-22: one HMAC-SHA512
of the seed under the fixed key, split into the 32-byte private key and the
chain code.  `hmac_sha512` (the `hmac`/`hashlib` libraries) is an explicit
argument. -/
def derive_master_key (hmac_sha512 : List Nat → List Nat → List Nat)
    (seed : List Nat) : List Nat × List Nat :=
  let I := hmac_sha512 bitcoinSeedKey seed
  (I.take 32, I.drop 32)

/-! ## Derivation-path parsing (`derive_keys.py`)

`derive_xprv` strips an optional `m/` prefix, splits on `/`, parses each
element (`'` or `h` suffix means hardened, realised as `+ 0x80000000`), and
folds one `ChildKey` call per element over the master key.  The `ChildKey`
operation itself lives in the `bip32utils` library, so it is an explicit
argument `ck`; a Python exception (`int(...)` on a malformed element) is
`none`. -/

/-- Element parsing inside the loop of `derive_xprv` (`derive_keys.py`
lines 40-45): an element ending in `'` or `h` is hardened and parses to
`int(prefix) + 0x80000000`, any other element parses to `int(element)`. -/
def parsePathElem (cs : List Char) : Option Nat :=
  if pyEndsWith cs apos ∨ pyEndsWith cs 'h' then
    (pyInt? cs.dropLast).map (fun i => i + 0x80000000)
  else
    pyInt? cs

/-- The `m/` prefix stripping of `derive_xprv` (`derive_keys.py` lines
36-37): `if derivation_path.startswith("m/"): derivation_path =
derivation_path[2:]`. -/
def stripMPrefix (path : List Char) : List Char :=
  if path.take 2 = ['m', '/'] then path.drop 2 else path

/-- The path-processing core of `derive_xprv` (`derive_keys.py` lines
36-46), parameterized by the child-key operation `ck` of an abstract
extended-key type: strip the optional `m/` prefix, then fold one
`ck`-application per path element over the master key, aborting (as the
Python exception does) on the first malformed element. -/
def derive_xprv {K : Type} (ck : K → Nat → K) (master_key : K)
    (derivation_path : List Char) : Option K :=
  (pySplit '/' (stripMPrefix derivation_path)).foldl
    (fun acc elem => acc.bind (fun k => (parsePathElem elem).map (ck k)))
    (some master_key)

/-- Adding a power of two that is clear in `i` is the same as or-ing it in;
this is what makes the scripts' `+ 0x80000000` agree with the spec's
`| 0x80000000` on u31 indices. -/
theorem add_two_pow_eq_lor (n i : Nat) (h : i < 2 ^ n) :
    i + 2 ^ n = i ||| 2 ^ n := by
  apply Nat.eq_of_testBit_eq
  intro j
  rw [Nat.testBit_or]
  have hrw : i + 2 ^ n = 2 ^ n * 1 + i := by omega
  rw [hrw, Nat.testBit_mul_pow_two_add 1 h j]
  by_cases hj : j < n
  · have hne : n ≠ j := by omega
    simp [hj, Nat.testBit_two_pow_of_ne hne]
  · simp only [if_neg hj]
    by_cases hjn : j = n
    · subst hjn
      have hi : i.testBit j = false := Nat.testBit_lt_two_pow h
      simp [hi, Nat.testBit_two_pow_self]
    · have hgt : n < j := by omega
      have h1 : Nat.testBit 1 (j - n) = false := by
        simpa using Nat.testBit_two_pow_of_ne (show (0 : Nat) ≠ j - n by omega)
      have hi : i.testBit j = false :=
        Nat.testBit_lt_two_pow (Nat.lt_of_lt_of_le h (Nat.pow_le_pow_right (by norm_num) (by omega)))
      simp [h1, hi, Nat.testBit_two_pow_of_ne (Nat.ne_of_lt hgt)]

/-! ## The extended-key data model

The spec's `ExtendedKey` (§3): private key, chain code, depth, parent
fingerprint, child index, and the network selector that the scripts set on
the master key. -/

/-- An extended private key. -/
structure BIP32Key where
  privKey : List Nat
  chainCode : List Nat
  depth : Nat
  parentFingerprint : List Nat
  childIndex : Nat
  testnet : Bool
deriving DecidableEq, Inhabited

/-- The cryptographic primitives the derivation step delegates to external
libraries: HMAC-SHA512, compressed-public-key derivation (secp256k1 point
multiplication plus SEC1 encoding) and HASH160. -/
structure CryptoOps where
  hmacSha512 : List Nat → List Nat → List Nat
  pubKey : List Nat → List Nat
  hash160 : List Nat → List Nat

/-- The secp256k1 group order. -/
def secpOrder : Nat :=
  0xFFFFFFFFFFFFFFFFFFFFFFFFFFFFFFFEBAAEDCE6AF48A03BBFD25E8CD0364141

/-- Big-endian 4-byte serialization of a 32-bit index. -/
def be32 (n : Nat) : List Nat :=
  [n / 2 ^ 24 % 256, n / 2 ^ 16 % 256, n / 2 ^ 8 % 256, n % 256]

/-- Big-endian 32-byte serialization of a field element. -/
def natToBytes32 (n : Nat) : List Nat :=
  (List.range 32).map (fun i => n / 256 ^ (31 - i) % 256)

/-- First four bytes of HASH160 of the parent's compressed public key. -/
def fingerprint (ops : CryptoOps) (k : BIP32Key) : List Nat :=
  (ops.hash160 (ops.pubKey k.privKey)).take 4

/-- Modelled from the spec: `deriveChild` of §4.2 (the scripts call
`bip32utils.BIP32Key.ChildKey`, which is not in src/).  Hardened data is
`0x00 || privateKey || index`, non-hardened data is the compressed public
key followed by the index; the child key is `(IL + parent) mod n`, the child
chain code is `IR`, depth increases by one, the parent fingerprint is
recorded, and the effective index becomes the child index.  The
`InvalidChildKey` retry of the spec is omitted: no claim below depends on
it. -/
def ckd (ops : CryptoOps) (parent : BIP32Key) (effIndex : Nat) : BIP32Key :=
  let data :=
    if 0x80000000 ≤ effIndex then
      0x00 :: (parent.privKey ++ be32 effIndex)
    else
      ops.pubKey parent.privKey ++ be32 effIndex
  let I := ops.hmacSha512 parent.chainCode data
  { privKey := natToBytes32
      ((digitsBEToNat 256 (I.take 32) + digitsBEToNat 256 parent.privKey) % secpOrder)
    chainCode := (I.drop 32).take 32
    depth := parent.depth + 1
    parentFingerprint := fingerprint ops parent
    childIndex := effIndex
    testnet := parent.testnet }

/-! ## Specification side of path application -/

/-- Effective 32-bit index of a path element, following the spec:
`hardened ? index | 0x80000000 : index`. -/
def effectiveIndex (index : Nat) (hardened : Bool) : Nat :=
  if hardened then index ||| 0x80000000 else index

/-- Application of a full derivation path, following the spec: one
child-derivation step per element, left to right from the root. -/
def applyPath {K : Type} (ck : K → Nat → K) (root : K) :
    List (Nat × Bool) → K
  | [] => root
  | e :: rest => applyPath ck (ck root (effectiveIndex e.1 e.2)) rest

/-- Relation between a textual path element and its parsed (index, hardened)
pair: the element is marked hardened exactly when it ends in an apostrophe
or in `h`, and the u31 index is the decimal value of the element with the
marker removed. -/
def elemSpec (cs : List Char) (e : Nat × Bool) : Prop :=
  e.1 < 2 ^ 31 ∧
  (e.2 = true ↔ (pyEndsWith cs apos ∨ pyEndsWith cs 'h')) ∧
  pyInt? (if e.2 then cs.dropLast else cs) = some e.1

/-- A path element related to `(i, hardened)` by `elemSpec` parses to the
spec's effective index. -/
theorem parsePathElem_eq_effectiveIndex (cs : List Char) (e : Nat × Bool)
    (h : elemSpec cs e) : parsePathElem cs = some (effectiveIndex e.1 e.2) := by
  obtain ⟨hlt, hmark, hval⟩ := h
  unfold parsePathElem effectiveIndex
  cases hb : e.2 with
  | true =>
    rw [hb] at hmark hval
    rw [if_pos (hmark.mp rfl)]
    simp only [if_true] at hval
    rw [hval]
    have h2 : (2147483648 : Nat) = 2 ^ 31 := by norm_num
    rw [h2]
    simp only [if_true]
    exact congrArg some (add_two_pow_eq_lor 31 e.1 hlt)
  | false =>
    rw [hb] at hmark hval
    have hnot : ¬(pyEndsWith cs apos ∨ pyEndsWith cs 'h') := by
      intro hc
      exact Bool.false_ne_true (hmark.mpr hc)
    rw [if_neg hnot]
    simpa using hval

/-- The element-wise fold of `derive_xprv` computes the spec's left-to-right
path application, one `ck` step per element. -/
theorem foldl_parse_eq_applyPath {K : Type} (ck : K → Nat → K) :
    ∀ (elems : List (List Char)) (pairs : List (Nat × Bool)) (root : K),
      List.Forall₂ elemSpec elems pairs →
      elems.foldl
        (fun acc elem => acc.bind (fun k => (parsePathElem elem).map (ck k)))
        (some root) = some (applyPath ck root pairs) := by
  intro elems
  induction elems with
  | nil =>
    intro pairs root hf
    cases hf
    rfl
  | cons e rest ih =>
    intro pairs root hf
    cases hf with
    | cons hhead htail =>
      rename_i p ps
      simp only [List.foldl_cons, parsePathElem_eq_effectiveIndex e p hhead,
        Option.bind_some, Option.map_some]
      exact ih ps (ck root (effectiveIndex p.1 p.2)) htail

/-! ## Batch derivation of leaf keys (`misc/recovery/import_keys.py`)

`derive_individual_keys` re-derives the hardened parent `84'/1'/0'/0` from
the master key inside the loop for every leaf index `i`, then derives one
non-hardened child per index.  Its element parsing checks only for the
apostrophe marker (unlike `derive_keys.py`, it does not accept a trailing
`h`). -/

/-- Element parsing of the loop in `derive_individual_keys`
(`misc/recovery/import_keys.py` lines 25-29): only the apostrophe marks a
hardened element. -/
def parsePathElemApos (cs : List Char) : Option Nat :=
  if pyEndsWith cs apos then
    (pyInt? cs.dropLast).map (fun i => i + 0x80000000)
  else
    pyInt? cs

/-- The base path string `"84'/1'/0'/0"` of `derive_individual_keys`. -/
def basePathChars : List Char :=
  ['8', '4', apos, '/', '1', apos, '/', '0', apos, '/', '0']

/-- The base-path fold of `derive_individual_keys`: parse and apply
`84'/1'/0'/0` element by element from the master key. -/
def deriveBase (ops : CryptoOps) (master_key : BIP32Key) : Option BIP32Key :=
  (pySplit '/' basePathChars).foldl
    (fun acc elem => acc.bind (fun k => (parsePathElemApos elem).map (ckd ops k)))
    (some master_key)

/-- Decimal rendering of a leaf index (Python's f-string interpolation). -/
def natToDecChars (n : Nat) : List Char :=
  if n = 0 then ['0']
  else (natToDigitsBE 10 n).map (fun d => Char.ofNat (48 + d))

/-- One export record of `derive_individual_keys`: path, WIF, public key and
address of a leaf key.  The address type is abstract because the address
encoding is delegated to `bip32utils`. -/
structure KeyRecord (A : Type) where
  path : List Char
  privkey_wif : List Char
  pubkey : List Nat
  address : A
deriving DecidableEq

/-- Record of one leaf key, as built in the loop body of
`derive_individual_keys` (path `m/84'/1'/0'/0/i`, WIF, public key,
address). -/
def mkRecord {A : Type} (wifF : BIP32Key → List Char) (addrF : BIP32Key → A)
    (i : Nat) (k : BIP32Key) : KeyRecord A :=
  { path := ('m' :: '/' :: basePathChars) ++ '/' :: natToDecChars i
    privkey_wif := wifF k
    pubkey := k.privKey
    address := addrF k }

/-- `derive_individual_keys` from `misc/recovery/import_keys.py` lines
22-43: for each leaf index `0 ≤ i < num_keys`, re-derive the base path from
the master key, derive child `i`, and emit its export record.  A failure of
the base-path parse (a Python exception) aborts the whole batch, hence the
`Option` result.  `wifF` and `addrF` stand for the library calls
`WalletImportFormat()` and `Address()`. -/
def derive_individual_keys {A : Type} (ops : CryptoOps)
    (wifF : BIP32Key → List Char) (addrF : BIP32Key → A)
    (master_key : BIP32Key) (num_keys : Nat) : Option (List (KeyRecord A)) :=
  (deriveBase ops master_key).map (fun base =>
    (List.range num_keys).map (fun i => mkRecord wifF addrF i (ckd ops base i)))

/-! ## Descriptor batch (`create_descriptors.py`) -/

/-- A `wpkh` descriptor string around a WIF key. -/
def wpkhDesc (wif : List Char) : List Char :=
  "wpkh(".toList ++ wif ++ [')']

/-- The leaf-key derivation of `derive_keys_with_descriptors`
(`create_descriptors.py` lines 19-24): fold `ChildKey` over the literal
index list `[84 + 0x80000000, 1 + 0x80000000, 0 + 0x80000000, 0, i]`
starting from the master key. -/
def leafKeyD (ops : CryptoOps) (master_key : BIP32Key) (i : Nat) : BIP32Key :=
  [84 + 0x80000000, 1 + 0x80000000, 0 + 0x80000000, 0, i].foldl (ckd ops)
    master_key

/-- `derive_keys_with_descriptors` from `create_descriptors.py` lines 12-38:
one `wpkh(<wif>)` descriptor per leaf index, each derived from the same
master key. -/
def derive_keys_with_descriptors (ops : CryptoOps)
    (wifF : BIP32Key → List Char) (master_key : BIP32Key) (num_keys : Nat) :
    List (List Char) :=
  (List.range num_keys).map (fun i => wpkhDesc (wifF (leafKeyD ops master_key i)))

/-! ## Checksummed descriptor batch (`create_valid_descriptors.py`)

`create_import_descriptors` walks the loaded key list with `enumerate`,
asks the external node for each descriptor's checksum
(`get_descriptor_with_checksum`, which returns `None` on an RPC error), and
appends only the successful results. -/

/-- `create_import_descriptors` from `create_valid_descriptors.py` lines
34-47, parameterized by the external call `getDesc` (wif, label →
descriptor or failure) and the label scheme: the `enumerate` loop that
appends a descriptor only when the call succeeds. -/
def create_import_descriptors {W L D : Type} (getDesc : W → L → Option D)
    (labelOf : Nat → L) (keys : List W) : List D :=
  keys.enum.foldl
    (fun acc p =>
      match getDesc p.2 (labelOf p.1) with
      | some d => acc ++ [d]
      | none => acc)
    []

/-- The append-on-success loop is `filterMap` over the enumerated keys. -/
theorem create_import_descriptors_eq_filterMap {W L D : Type}
    (getDesc : W → L → Option D) (labelOf : Nat → L) (keys : List W) :
    create_import_descriptors getDesc labelOf keys =
      keys.enum.filterMap (fun p => getDesc p.2 (labelOf p.1)) := by
  unfold create_import_descriptors
  generalize keys.enum = l
  suffices h : ∀ (acc : List D),
      l.foldl
        (fun acc p =>
          match getDesc p.2 (labelOf p.1) with
          | some d => acc ++ [d]
          | none => acc) acc =
        acc ++ l.filterMap (fun p => getDesc p.2 (labelOf p.1)) by
    simpa using h []
  induction l with
  | nil => intro acc; simp
  | cons p t ih =>
    intro acc
    simp only [List.foldl_cons, List.filterMap_cons]
    cases hg : getDesc p.2 (labelOf p.1) with
    | none => simpa using ih acc
    | some d => simpa using ih (acc ++ [d])

/-! ## Mnemonic-to-seed (`derive_keys.py` line 11-14)

`mnemonic_to_seed` delegates entirely to `mnemonic.Mnemonic.to_seed`, which
is not part of src/; the definitions below are modelled from the spec
(§4.1): PBKDF2 with HMAC-SHA512, password the NFKD-normalized sentence,
salt `"mnemonic"` plus the NFKD-normalized passphrase, 2048 iterations,
64 bytes of output. -/

/-- Byte-wise xor of two equal-length byte strings. -/
def xorBytes (a b : List Nat) : List Nat :=
  List.zipWith (fun x y => x ^^^ y) a b

/-- Modelled from the spec: the iteration loop of one PBKDF2 block,
`U_j = PRF(U_(j-1))`, xor-accumulated. -/
def pbkdf2Rounds (prf : List Nat → List Nat) :
    Nat → List Nat → List Nat → List Nat
  | 0, _, acc => acc
  | n + 1, u, acc =>
    pbkdf2Rounds prf n (prf u) (xorBytes acc (prf u))

/-- Modelled from the spec: PBKDF2 block `F(password, salt, c, i)` with
`U_1 = PRF(salt || INT_BE32(i))`. -/
def pbkdf2Block (prf : List Nat → List Nat) (salt : List Nat) (c i : Nat) :
    List Nat :=
  pbkdf2Rounds prf (c - 1) (prf (salt ++ be32 i)) (prf (salt ++ be32 i))

/-- Modelled from the spec: PBKDF2 with HMAC-SHA512 (hLen = 64): enough
blocks to cover `dkLen`, truncated to `dkLen` bytes. -/
def pbkdf2HmacSha512 (hmac_sha512 : List Nat → List Nat → List Nat)
    (password salt : List Nat) (c dkLen : Nat) : List Nat :=
  (((List.range ((dkLen + 63) / 64)).map
    (fun j => pbkdf2Block (hmac_sha512 password) salt c (j + 1))).flatten).take
    dkLen

/-- The ASCII bytes of the fixed salt prefix `"mnemonic"`. -/
def mnemonicSaltPrefix : List Nat := "mnemonic".toList.map Char.toNat

/-- Modelled from the spec: `mnemonic_to_seed` (`derive_keys.py` lines
11-14, delegating to `mnemonic.Mnemonic.to_seed`, which is not in src/):
PBKDF2-HMAC-SHA512 of the NFKD-normalized sentence, salted with
`"mnemonic"` plus the NFKD-normalized passphrase, 2048 iterations, 64
bytes.  NFKD normalization (`nfkd`) is an explicit argument (identity on
the ASCII wordlists). -/
def mnemonic_to_seed (hmac_sha512 : List Nat → List Nat → List Nat)
    (nfkd : List Char → List Nat) (mnemonic_phrase passphrase : List Char) :
    List Nat :=
  pbkdf2HmacSha512 hmac_sha512 (nfkd mnemonic_phrase)
    (mnemonicSaltPrefix ++ nfkd passphrase) 2048 64

theorem pbkdf2Rounds_length (prf : List Nat → List Nat)
    (hprf : ∀ x, (prf x).length = 64) :
    ∀ (n : Nat) (u acc : List Nat), acc.length = 64 →
      (pbkdf2Rounds prf n u acc).length = 64 := by
  intro n
  induction n with
  | zero => intro u acc hacc; simpa [pbkdf2Rounds] using hacc
  | succ k ih =>
    intro u acc hacc
    simp only [pbkdf2Rounds]
    apply ih
    simp [xorBytes, hacc, hprf u]

/-! ## Claim theorems -/

/-- Claim C1: for every 32-byte private key, the testnet WIF encoder of
`fix_keys.py` produces `Base58(payload ++ checksum)` with `payload = 0xEF ||
privateKey || 0x01` (compression flag) and `checksum` the first 4 bytes of
`SHA256(SHA256(payload))` — it agrees with the spec's `toWIF` at
network = testnet, compressed = true — and the mainnet version byte of the
spec encoder is `0x80`. -/
theorem C1_testnet_wif_spec (sha256 : List Nat → List Nat) (priv : List Nat)
    (h : priv.length = 32) :
    testnet_wif sha256 priv = toWIF sha256 true true priv ∧
    testnet_wif sha256 priv =
      b58encode ((0xEF :: (priv ++ [0x01])) ++
        (sha256 (sha256 (0xEF :: (priv ++ [0x01])))).take 4) ∧
    wifVersionByte false = 0x80 ∧ wifVersionByte true = 0xEF :=
  ⟨rfl, rfl, rfl, rfl⟩

/-- Concrete instance of `C1_testnet_wif_spec` at a 32-byte key. -/
theorem C1_testnet_wif_spec_witness :
    (List.replicate 32 7).length = 32 ∧
    (testnet_wif (fun _ => List.replicate 32 0) (List.replicate 32 7) =
      toWIF (fun _ => List.replicate 32 0) true true (List.replicate 32 7) ∧
     testnet_wif (fun _ => List.replicate 32 0) (List.replicate 32 7) =
      b58encode ((0xEF :: (List.replicate 32 7 ++ [0x01])) ++
        ((fun _ => List.replicate 32 0)
          ((fun _ => List.replicate 32 0)
            (0xEF :: (List.replicate 32 7 ++ [0x01])))).take 4) ∧
     wifVersionByte false = 0x80 ∧ wifVersionByte true = 0xEF) :=
  ⟨by decide, C1_testnet_wif_spec (fun _ => List.replicate 32 0)
    (List.replicate 32 7) (by decide)⟩

/-- Claim C3: for every 64-byte seed, `derive_master_key` computes
`I = HMAC-SHA512("Bitcoin seed", seed)` and returns `privateKey = I[0:32]`
and `chainCode = I[32:64]`; the second conjunct pins the HMAC key to the
ASCII bytes of `"Bitcoin seed"`. -/
theorem C3_master_key_spec (hmac_sha512 : List Nat → List Nat → List Nat)
    (seed : List Nat) (hseed : seed.length = 64)
    (hlen : ∀ k d, (hmac_sha512 k d).length = 64) :
    derive_master_key hmac_sha512 seed =
      ((hmac_sha512 bitcoinSeedKey seed).take 32,
       ((hmac_sha512 bitcoinSeedKey seed).drop 32).take 32) ∧
    bitcoinSeedKey =
      [0x42, 0x69, 0x74, 0x63, 0x6F, 0x69, 0x6E, 0x20, 0x73, 0x65, 0x65, 0x64] := by
  constructor
  · unfold derive_master_key
    have hdrop : ((hmac_sha512 bitcoinSeedKey seed).drop 32).length ≤ 32 := by
      simp [hlen]
    rw [List.take_of_length_le hdrop]
  · decide

/-- Concrete instance of `C3_master_key_spec` at a 64-byte seed. -/
theorem C3_master_key_spec_witness :
    (List.replicate 64 3).length = 64 ∧
    (derive_master_key (fun _ _ => List.replicate 64 9) (List.replicate 64 3) =
      (((fun (_ _ : List Nat) => List.replicate 64 9) bitcoinSeedKey
          (List.replicate 64 3)).take 32,
       (((fun (_ _ : List Nat) => List.replicate 64 9) bitcoinSeedKey
          (List.replicate 64 3)).drop 32).take 32) ∧
     bitcoinSeedKey =
      [0x42, 0x69, 0x74, 0x63, 0x6F, 0x69, 0x6E, 0x20, 0x73, 0x65, 0x65, 0x64]) :=
  ⟨by decide, C3_master_key_spec (fun _ _ => List.replicate 64 9)
    (List.replicate 64 3) (by decide) (fun _ _ => by simp)⟩

/-- Claim C4: encoding a 32-byte private key to WIF with the hand-written
testnet encoder and Base58-decoding the result, then stripping the version
byte (one leading byte) and the trailing compression flag and checksum
(keeping the next 32 bytes), recovers the private key. -/
theorem C4_wif_round_trip (sha256 : List Nat → List Nat) (priv : List Nat)
    (hlen : priv.length = 32) (hpriv : ∀ b ∈ priv, b < 256)
    (hsha : ∀ x, ∀ b ∈ sha256 x, b < 256) :
    ((b58decode (testnet_wif sha256 priv)).drop 1).take 32 = priv := by
  unfold testnet_wif
  rw [b58decode_b58encode]
  · simp only [List.cons_append, List.drop_succ_cons, List.drop_zero,
      List.append_assoc]
    rw [List.take_append_of_le_length (by omega), List.take_of_length_le (by omega)]
  · intro b hb
    rcases List.mem_append.mp hb with hb1 | hb2
    · rcases List.mem_cons.mp hb1 with rfl | hb1
      · norm_num
      · rcases List.mem_append.mp hb1 with hp | h1
        · exact hpriv b hp
        · rcases List.mem_singleton.mp h1 with rfl
          norm_num
    · exact hsha _ b (List.take_subset 4 _ hb2)

/-- Concrete instance of `C4_wif_round_trip`. -/
theorem C4_wif_round_trip_witness :
    (List.replicate 32 255).length = 32 ∧
    ((b58decode (testnet_wif (fun _ => List.replicate 32 0)
      (List.replicate 32 255))).drop 1).take 32 = List.replicate 32 255 :=
  ⟨by decide, C4_wif_round_trip (fun _ => List.replicate 32 0)
    (List.replicate 32 255) (by decide)
    (fun b hb => by have := List.eq_of_mem_replicate hb; omega)
    (fun x b hb => by have := List.eq_of_mem_replicate hb; omega)⟩

/-- Claim C5 (code evaluated at the failing input): `derive_master_key`
performs no validity check at all.  With HMAC-SHA512 instantiated as the
all-zero function — standing for a seed whose HMAC image starts with 32
zero bytes, the case the claim says must fail with `InvalidMasterKey` and
retry — the function returns the all-zero private key (big-endian value
`0`, which is neither positive nor below-the-order-checked) unchanged; its
return type has no failure path. -/
theorem C5_master_key_not_validated :
    derive_master_key (fun _ _ => List.replicate 64 0) (List.replicate 64 0) =
      (List.replicate 32 0, List.replicate 32 0) ∧
    digitsBEToNat 256
      (derive_master_key (fun _ _ => List.replicate 64 0)
        (List.replicate 64 0)).1 = 0 ∧
    digitsBEToNat 256
      (derive_master_key (fun _ _ => List.replicate 64 0)
        (List.replicate 64 0)).1 < secpOrder := by
  refine ⟨by decide, by decide, ?_⟩
  have h : digitsBEToNat 256
      (derive_master_key (fun _ _ => List.replicate 64 0)
        (List.replicate 64 0)).1 = 0 := by decide
  rw [h]
  unfold secpOrder
  norm_num

/-- Claim C6: `mnemonic_to_seed` is PBKDF2-HMAC-SHA512 of the
NFKD-normalized sentence with salt `"mnemonic"` plus the NFKD-normalized
passphrase and 2048 iterations; it is deterministic (a pure function of its
inputs) and returns exactly 64 bytes whenever the underlying HMAC returns
64-byte blocks. -/
theorem C6_mnemonic_to_seed_spec (hmac_sha512 : List Nat → List Nat → List Nat)
    (nfkd : List Char → List Nat) (mnemonic_phrase passphrase : List Char)
    (hlen : ∀ k d, (hmac_sha512 k d).length = 64) :
    mnemonic_to_seed hmac_sha512 nfkd mnemonic_phrase passphrase =
      pbkdf2HmacSha512 hmac_sha512 (nfkd mnemonic_phrase)
        (mnemonicSaltPrefix ++ nfkd passphrase) 2048 64 ∧
    mnemonicSaltPrefix = [0x6D, 0x6E, 0x65, 0x6D, 0x6F, 0x6E, 0x69, 0x63] ∧
    (∀ m2 p2, m2 = mnemonic_phrase → p2 = passphrase →
      mnemonic_to_seed hmac_sha512 nfkd m2 p2 =
        mnemonic_to_seed hmac_sha512 nfkd mnemonic_phrase passphrase) ∧
    (mnemonic_to_seed hmac_sha512 nfkd mnemonic_phrase passphrase).length = 64 := by
  refine ⟨rfl, by decide, ?_, ?_⟩
  · intro m2 p2 hm hp
    rw [hm, hp]
  · unfold mnemonic_to_seed pbkdf2HmacSha512
    have hr1 : List.range ((64 + 63) / 64) = [0] := by decide
    rw [hr1]
    simp only [List.map_cons, List.map_nil, List.flatten_cons, List.flatten_nil,
      List.append_nil, List.length_take]
    have hb : ∀ (salt : List Nat) (i : Nat),
        (pbkdf2Block (hmac_sha512 (nfkd mnemonic_phrase)) salt 2048 i).length = 64 := by
      intro salt i
      unfold pbkdf2Block
      exact pbkdf2Rounds_length _ (fun x => hlen _ x) _ _ _ (hlen _ _)
    rw [hb]
    exact Nat.min_self 64

/-- Concrete instance of `C6_mnemonic_to_seed_spec`. -/
theorem C6_mnemonic_to_seed_spec_witness :
    (∀ k d, ((fun (_ _ : List Nat) => List.replicate 64 1) k d).length = 64) ∧
    (mnemonic_to_seed (fun _ _ => List.replicate 64 1)
        (fun cs => cs.map Char.toNat) ['a'] [] =
      pbkdf2HmacSha512 (fun _ _ => List.replicate 64 1)
        ((fun (cs : List Char) => cs.map Char.toNat) ['a'])
        (mnemonicSaltPrefix ++
          (fun (cs : List Char) => cs.map Char.toNat) []) 2048 64 ∧
     mnemonicSaltPrefix = [0x6D, 0x6E, 0x65, 0x6D, 0x6F, 0x6E, 0x69, 0x63] ∧
     (∀ m2 p2, m2 = ['a'] → p2 = [] →
       mnemonic_to_seed (fun _ _ => List.replicate 64 1)
          (fun cs => cs.map Char.toNat) m2 p2 =
         mnemonic_to_seed (fun _ _ => List.replicate 64 1)
          (fun cs => cs.map Char.toNat) ['a'] []) ∧
     (mnemonic_to_seed (fun _ _ => List.replicate 64 1)
        (fun cs => cs.map Char.toNat) ['a'] []).length = 64) :=
  ⟨fun _ _ => by simp,
   C6_mnemonic_to_seed_spec (fun _ _ => List.replicate 64 1)
    (fun cs => cs.map Char.toNat) ['a'] [] (fun _ _ => by simp)⟩

/-- Claim C2: a path element ending in an apostrophe or a trailing `h` is
hardened; a hardened element of u31 value `index` parses to the effective
index `index ||| 0x80000000`, a non-hardened element to its value; and
`derive_xprv` applies the elements left to right from the master key, one
child-derivation step per element. -/
theorem C2_path_parsing {K : Type} (ck : K → Nat → K) (master_key : K)
    (path : List Char) (pairs : List (Nat × Bool))
    (h : List.Forall₂ elemSpec (pySplit '/' (stripMPrefix path)) pairs) :
    derive_xprv ck master_key path = some (applyPath ck master_key pairs) :=
  foldl_parse_eq_applyPath ck _ pairs master_key h

/-- Concrete instance of `C2_path_parsing` on the path `m/84'/5` (one
hardened element, apostrophe form, and one plain element). -/
theorem C2_path_parsing_witness :
    List.Forall₂ elemSpec
      (pySplit '/' (stripMPrefix ['m', '/', '8', '4', apos, '/', '5']))
      [(84, true), (5, false)] ∧
    derive_xprv (fun (k i : Nat) => k * 4294967296 + i) 0
        ['m', '/', '8', '4', apos, '/', '5'] =
      some (applyPath (fun (k i : Nat) => k * 4294967296 + i) 0
        [(84, true), (5, false)]) := by
  have h : List.Forall₂ elemSpec
      (pySplit '/' (stripMPrefix ['m', '/', '8', '4', apos, '/', '5']))
      [(84, true), (5, false)] := by
    refine List.Forall₂.cons ⟨by norm_num, by decide, by decide⟩
      (List.Forall₂.cons ⟨by norm_num, by decide, by decide⟩ List.Forall₂.nil)
  exact ⟨h, C2_path_parsing (fun (k i : Nat) => k * 4294967296 + i) 0
    ['m', '/', '8', '4', apos, '/', '5'] [(84, true), (5, false)] h⟩

/-- Counterexample to claim C10 as stated: the `m/` prefix is stripped only
once, so for the path suffix `p = "m/0"` the two calls differ —
`derive_xprv "m/m/0"` strips one prefix, then fails to parse the element
`"m"` (a Python `ValueError`), while `derive_xprv "m/0"` succeeds. -/
theorem C10_counterexample :
    ¬ (derive_xprv (fun (k i : Nat) => k * 4294967296 + i) 0
        (['m', '/'] ++ ['m', '/', '0']) =
       derive_xprv (fun (k i : Nat) => k * 4294967296 + i) 0 ['m', '/', '0']) := by
  decide

/-- Claim C10 as amended: for every path suffix `p` that does not itself
start with `m/`, prefixing `m/` does not change the result of
`derive_xprv`, for every child-key operation and master key. -/
theorem C10_m_prefix_optional {K : Type} (ck : K → Nat → K) (master_key : K)
    (p : List Char) (h : ¬ p.take 2 = ['m', '/']) :
    derive_xprv ck master_key (['m', '/'] ++ p) =
      derive_xprv ck master_key p := by
  unfold derive_xprv stripMPrefix
  rw [if_pos (show (['m', '/'] ++ p).take 2 = ['m', '/'] from rfl), if_neg h]
  rfl

/-- Concrete instance of `C10_m_prefix_optional` at `p = "0"`. -/
theorem C10_m_prefix_optional_witness :
    ¬ (['0'] : List Char).take 2 = ['m', '/'] ∧
    derive_xprv (fun (k i : Nat) => k * 4294967296 + i) 0 (['m', '/'] ++ ['0']) =
      derive_xprv (fun (k i : Nat) => k * 4294967296 + i) 0 ['0'] :=
  ⟨by decide, C10_m_prefix_optional (fun (k i : Nat) => k * 4294967296 + i) 0
    ['0'] (by decide)⟩

/-- Claim C9: child derivation is a pure constructor of a brand-new
extended key — the child differs from the parent (its depth is the parent's
plus one) and, the embedding being value-semantic, the parent's fields are
untouched; moreover each element of the descriptor batch of
`create_descriptors.py` depends only on the master key and its own index,
so deriving one child does not disturb any other derivation from the same
parent. -/
theorem C9_child_is_new_key (ops : CryptoOps) (parent : BIP32Key) (idx : Nat) :
    ckd ops parent idx ≠ parent ∧
    (ckd ops parent idx).depth = parent.depth + 1 ∧
    (ckd ops parent idx).testnet = parent.testnet ∧
    ∀ (wifF : BIP32Key → List Char) (n i : Nat), i < n →
      (derive_keys_with_descriptors ops wifF parent n)[i]? =
        some (wpkhDesc (wifF (leafKeyD ops parent i))) := by
  refine ⟨?_, rfl, rfl, ?_⟩
  · intro hc
    have hd := congrArg BIP32Key.depth hc
    simp only [ckd] at hd
    omega
  · intro wifF n i hi
    unfold derive_keys_with_descriptors
    simp [List.getElem?_range, hi]

/-- Concrete instance of `C9_child_is_new_key`. -/
theorem C9_child_is_new_key_witness :
    (1 : Nat) < 3 ∧
    (derive_keys_with_descriptors
        ⟨fun _ _ => List.replicate 64 0, fun x => x, fun x => x⟩
        (fun _ => []) ⟨[1], [2], 0, [], 0, true⟩ 3)[1]? =
      some (wpkhDesc ((fun _ => ([] : List Char))
        (leafKeyD ⟨fun _ _ => List.replicate 64 0, fun x => x, fun x => x⟩
          ⟨[1], [2], 0, [], 0, true⟩ 1))) :=
  ⟨by decide,
   (C9_child_is_new_key ⟨fun _ _ => List.replicate 64 0, fun x => x, fun x => x⟩
      ⟨[1], [2], 0, [], 0, true⟩ 0).2.2.2 (fun _ => []) 3 1 (by decide)⟩

/-- Claim C7: deriving the ten leaf records for indices 0..9 along
`m/84'/1'/0'/0/i` yields, whenever the base path derives to some parent
`base` and the address encoding is injective, exactly the ten per-index
records; their addresses are pairwise distinct, the leaf child indices are
exactly `0, 1, ..., 9` (strictly increasing), and every leaf carries the
same parent fingerprint, namely that of the shared parent `base`. -/
theorem C7_batch_of_ten {A : Type} (ops : CryptoOps)
    (wifF : BIP32Key → List Char) (addrF : BIP32Key → A)
    (master_key base : BIP32Key)
    (hbase : deriveBase ops master_key = some base)
    (hinj : Function.Injective addrF) :
    derive_individual_keys ops wifF addrF master_key 10 =
      some ((List.range 10).map (fun i => mkRecord wifF addrF i (ckd ops base i))) ∧
    List.Pairwise (fun r1 r2 => r1.address ≠ r2.address)
      ((List.range 10).map (fun i => mkRecord wifF addrF i (ckd ops base i))) ∧
    (List.range 10).map (fun i => (ckd ops base i).childIndex) = List.range 10 ∧
    ∀ i ∈ List.range 10,
      (ckd ops base i).parentFingerprint = fingerprint ops base := by
  refine ⟨?_, ?_, ?_, ?_⟩
  · unfold derive_individual_keys
    rw [hbase]
    rfl
  · rw [List.pairwise_map]
    refine (List.pairwise_lt_range 10).imp ?_
    intro i j hij hc
    have hk : ckd ops base i = ckd ops base j := hinj hc
    have hidx := congrArg BIP32Key.childIndex hk
    simp only [ckd] at hidx
    omega
  · refine List.map_congr_left ?_ |>.trans (List.map_id _)
    intro i _
    rfl
  · intro i _
    rfl

set_option maxRecDepth 100000 in
/-- Concrete instance of `C7_batch_of_ten`: identity crypto primitives, the
identity address map (injective), and a small master key; the base key is
computed by evaluation. -/
theorem C7_batch_of_ten_witness :
    deriveBase ⟨fun _ _ => List.replicate 64 0, fun x => x, fun x => x⟩
        ⟨[1], [2], 0, [], 0, true⟩ =
      some ((deriveBase ⟨fun _ _ => List.replicate 64 0, fun x => x, fun x => x⟩
        ⟨[1], [2], 0, [], 0, true⟩).getD default) ∧
    (derive_individual_keys ⟨fun _ _ => List.replicate 64 0, fun x => x, fun x => x⟩
        (fun _ => []) (fun k => k) ⟨[1], [2], 0, [], 0, true⟩ 10 =
      some ((List.range 10).map (fun i => mkRecord (fun _ => []) (fun k => k) i
        (ckd ⟨fun _ _ => List.replicate 64 0, fun x => x, fun x => x⟩
          ((deriveBase ⟨fun _ _ => List.replicate 64 0, fun x => x, fun x => x⟩
            ⟨[1], [2], 0, [], 0, true⟩).getD default) i))) ∧
     List.Pairwise (fun r1 r2 => r1.address ≠ r2.address)
      ((List.range 10).map (fun i => mkRecord (fun _ => []) (fun k => k) i
        (ckd ⟨fun _ _ => List.replicate 64 0, fun x => x, fun x => x⟩
          ((deriveBase ⟨fun _ _ => List.replicate 64 0, fun x => x, fun x => x⟩
            ⟨[1], [2], 0, [], 0, true⟩).getD default) i))) ∧
     (List.range 10).map (fun i =>
        (ckd ⟨fun _ _ => List.replicate 64 0, fun x => x, fun x => x⟩
          ((deriveBase ⟨fun _ _ => List.replicate 64 0, fun x => x, fun x => x⟩
            ⟨[1], [2], 0, [], 0, true⟩).getD default) i).childIndex) =
        List.range 10 ∧
     ∀ i ∈ List.range 10,
      (ckd ⟨fun _ _ => List.replicate 64 0, fun x => x, fun x => x⟩
          ((deriveBase ⟨fun _ _ => List.replicate 64 0, fun x => x, fun x => x⟩
            ⟨[1], [2], 0, [], 0, true⟩).getD default) i).parentFingerprint =
        fingerprint ⟨fun _ _ => List.replicate 64 0, fun x => x, fun x => x⟩
          ((deriveBase ⟨fun _ _ => List.replicate 64 0, fun x => x, fun x => x⟩
            ⟨[1], [2], 0, [], 0, true⟩).getD default)) := by
  have hbase : deriveBase ⟨fun _ _ => List.replicate 64 0, fun x => x, fun x => x⟩
      ⟨[1], [2], 0, [], 0, true⟩ =
      some ((deriveBase ⟨fun _ _ => List.replicate 64 0, fun x => x, fun x => x⟩
        ⟨[1], [2], 0, [], 0, true⟩).getD default) := by decide
  exact ⟨hbase,
    C7_batch_of_ten ⟨fun _ _ => List.replicate 64 0, fun x => x, fun x => x⟩
      (fun _ => []) (fun k => k) ⟨[1], [2], 0, [], 0, true⟩ _ hbase
      (fun _ _ hc => hc)⟩

/-- Counterexample to claim C8 as stated: with three keys and the
descriptor call failing on the middle one, the batch of
`create_valid_descriptors.py` continues but returns a two-element list —
there is no per-key entry carrying (or even recording) the failing key's
outcome, so the result is not a per-key result list. -/
theorem C8_counterexample :
    create_import_descriptors
        (fun (w : Nat) (_ : Nat) => if w = 2 then none else some w)
        (fun i => i) [1, 2, 3] = [1, 3] ∧
    ¬ (create_import_descriptors
        (fun (w : Nat) (_ : Nat) => if w = 2 then none else some w)
        (fun i => i) [1, 2, 3]).length = ([1, 2, 3] : List Nat).length := by
  decide

/-- Claim C8 as amended: the descriptor batch does continue past a failing
key — it equals `filterMap` of the per-key call over the enumerated keys,
so every key whose call succeeds still contributes its descriptor — but a
failing key is silently omitted from the result rather than recorded. -/
theorem C8_continue_on_error {W L D : Type} (getDesc : W → L → Option D)
    (labelOf : Nat → L) (keys : List W) :
    create_import_descriptors getDesc labelOf keys =
      keys.enum.filterMap (fun p => getDesc p.2 (labelOf p.1)) ∧
    ∀ p ∈ keys.enum, ∀ d, getDesc p.2 (labelOf p.1) = some d →
      d ∈ create_import_descriptors getDesc labelOf keys := by
  refine ⟨create_import_descriptors_eq_filterMap getDesc labelOf keys, ?_⟩
  intro p hp d hd
  rw [create_import_descriptors_eq_filterMap]
  exact List.mem_filterMap.mpr ⟨p, hp, hd⟩

/-- Concrete instance of `C8_continue_on_error`: in the failing batch of
`C8_counterexample`, the descriptors of the two healthy keys are still
present. -/
theorem C8_continue_on_error_witness :
    ((0, 1) ∈ ([1, 2, 3] : List Nat).enum ∧
      (fun (w : Nat) (_ : Nat) => if w = 2 then none else some w) 1
        ((fun (i : Nat) => i) 0) = some 1) ∧
    1 ∈ create_import_descriptors
        (fun (w : Nat) (_ : Nat) => if w = 2 then none else some w)
        (fun i => i) [1, 2, 3] :=
  ⟨⟨by decide, by decide⟩,
   (C8_continue_on_error
      (fun (w : Nat) (_ : Nat) => if w = 2 then none else some w)
      (fun i => i) [1, 2, 3]).2 (0, 1) (by decide) 1 (by decide)⟩

end Doko
